import Mathlib

/-!
Verification of the package-activation core of the cordial `geneos` tool:
the `Update` base-link swap (tools/geneos/internal/geneos/geneos.go), the
`latest` version resolver and `Unarchive` entry handling
(tools/geneos/internal/geneos/options.go), the `geneos package update`
command (tools/geneos/cmd/pkgcmd/update.go) and the instance stop
escalation (`instance.Stop`).

Filesystem and process effects are embedded as explicit state passing:
an `FS` value records what the host primitives (`Readlink`, `Stat`,
`Remove`, `Symlink`) would observe and a list of `Write`s records the
mutations performed.
-/

namespace Cordial

/-- Error kinds distinguished by the update code paths: `notExist` stands for
`os.ErrNotExist` / `fs.ErrNotExist`, `other` for every other error value. -/
inductive Err where
  | notExist
  | other
deriving DecidableEq, Repr

/-- The filesystem state `Update` sees for one (host, component, basename):
`link` is the `Readlink(basepath)` result (`""` when the link cannot be read,
exactly as the Go code leaves `existing` empty after a `Readlink` error), and
`dirs` lists the installed version directory names under
`packages/<component>`, i.e. the names for which `Stat` succeeds. -/
structure FS where
  link : String
  dirs : List String
deriving DecidableEq, Repr

/-- A filesystem mutation performed by `Update`: the `h.Remove(basepath)` call
and the `h.Symlink(version, basepath)` call. -/
inductive Write where
  | remove
  | symlink (target : String)
deriving DecidableEq, Repr

/-- Shallow embedding of the per-target tail of `geneos.Update`
(geneos.go lines 280-309), entered once hosts and component are specific and
`LatestVersion` has produced the resolved `version` (the empty string when
resolution found nothing). Returns the new filesystem state, the list of
filesystem writes performed, and the error result (`none` is success).
The `Remove`/`Symlink` host primitives are modelled as succeeding; their own
error propagation (lines 302-307) is not needed by any claim. -/
def Update (fs : FS) (version : String) (force : Bool) : FS × List Write × Option Err :=
  if version = "" then (fs, [], some .notExist)
  else
    let existing := fs.link
    if version ∉ fs.dirs then (fs, [], some .notExist)
    else if (existing ≠ "" ∧ force = false) ∨ existing = version then (fs, [], none)
    else ({ link := version, dirs := fs.dirs }, [.remove, .symlink version], none)

/-- Result of one of `Update`'s fan-out loops: the targets it attempted, the
errors it logged, the final threaded state and the loop's returned error. -/
structure FanResult (α σ : Type) where
  attempted : List α
  logged : List Err
  state : σ
  err : Option Err
deriving DecidableEq, Repr

/-- Shallow embedding of the fan-out loop `Update` uses for the nil-component
and related-component cases (geneos.go lines 222-229 and 243-250): every
target is attempted in turn; a failure that is `NotExist` is skipped silently,
any other failure is logged; the loop then moves on and finally returns `nil`
unconditionally. -/
def fanoutNil {α σ : Type} (f : σ → α → σ × Option Err) (ts : List α) (s : σ) :
    FanResult α σ :=
  match ts with
  | [] => { attempted := [], logged := [], state := s, err := none }
  | t :: rest =>
    let r0 := f s t
    let r := fanoutNil f rest r0.1
    { attempted := t :: r.attempted
      logged := (match r0.2 with
        | some Err.other => [Err.other]
        | _ => []) ++ r.logged
      state := r.state
      err := none }

/-- Shallow embedding of the all-hosts fan-out loop of `Update`
(geneos.go lines 252-260): same log-and-continue body, but the loop ends with
a bare `return` of the named `err`, so the loop's result is whatever error the
final iteration's recursive call produced (`e0` when the target list is
empty). -/
def fanoutHosts {α σ : Type} (f : σ → α → σ × Option Err) (ts : List α) (s : σ)
    (e0 : Option Err) : FanResult α σ :=
  match ts with
  | [] => { attempted := [], logged := [], state := s, err := e0 }
  | t :: rest =>
    let r0 := f s t
    let r := fanoutHosts f rest r0.1 r0.2
    { attempted := t :: r.attempted
      logged := (match r0.2 with
        | some Err.other => [Err.other]
        | _ => []) ++ r.logged
      state := r.state
      err := r.err }

/-- The fleet state `Update`'s dispatch layers act on: the host list behind
`ALL.OrList()`, the component list behind a nil component's `OrList()`, each
component's `RelatedTypes`, the `LatestVersion` resolver (host, component,
requested version to resolved version) and the per-(host, component)
filesystem state for the basename being updated. -/
structure World where
  hosts : List String
  comps : List String
  related : String → List String
  resolve : String → String → String → String
  fs : String → String → FS

/-- The specific-host, specific-component leaf of `Update`: map `"latest"` to
the empty request (geneos.go lines 269-271), resolve via `LatestVersion`, then
run the link-swap tail. -/
def updateLeaf (version : String) (force : Bool) (w : World) (h c : String) :
    World × Option Err :=
  let v0 := if version = "latest" ∨ version = "" then "" else version
  let v := w.resolve h c v0
  let r := Update (w.fs h c) v force
  ({ w with fs := fun h' c' => if h' = h ∧ c' = c then r.1 else w.fs h' c' }, r.2.2)

/-- The host-dispatch layer of `Update`: `none` is the fleet wildcard `ALL`,
which fans out over every host with the last-error loop. -/
def updateHosts (version : String) (force : Bool) (w : World) (h : Option String)
    (c : String) : World × Option Err :=
  match h with
  | none =>
    let r := fanoutHosts (fun w h' => updateLeaf version force w h' c) w.hosts w none
    (r.state, r.err)
  | some h => updateLeaf version force w h c

/-- The related-components layer of `Update` (geneos.go lines 243-250): a
component with `RelatedTypes` fans out over them (the related components
themselves declare no further related types) and returns `nil`. -/
def updateRelated (version : String) (force : Bool) (w : World) (h : Option String)
    (c : String) : World × Option Err :=
  match w.related c with
  | [] => updateHosts version force w h c
  | rcts =>
    let r := fanoutNil (fun w c' => updateHosts version force w h c') rcts w
    (r.state, none)

/-- The top dispatch layer of `Update` (geneos.go lines 222-229): a nil
component fans out over every known component and returns `nil`. -/
def UpdateAll (version : String) (force : Bool) (w : World) (h : Option String)
    (c : Option String) : World × Option Err :=
  match c with
  | none =>
    let r := fanoutNil (fun w c' => updateRelated version force w h c') w.comps w
    (r.state, none)
  | some c => updateRelated version force w h c

/-- A per-target action whose first target (0) fails with a non-`NotExist`
error while every other target succeeds; the state collects the targets the
action was invoked on. -/
def failFirst : List Nat → Nat → List Nat × Option Err :=
  fun s t => (s ++ [t], if t = 0 then some Err.other else none)

/-- An instance as seen by `geneos package update`: the `protected` flag and
the `version` configuration parameter, which stores the base link name the
instance runs from. -/
structure Inst where
  name : String
  prot : Bool
  version : String
deriving DecidableEq, Repr

/-- The value of an instance's configuration parameter, for the two keys the
update command queries. -/
def instParam (i : Inst) (key : String) : String :=
  if key = "protected" then (if i.prot then "true" else "false")
  else if key = "version" then i.version
  else ""

/-- Modelled from the spec: `instance.MatchKeyValue(h, ct, key, value)` (its
definition is not under `src/`) enumerates the instances of the component on
the host and keeps those whose configuration parameter `key` equals `value`. -/
def MatchKeyValue (is : List Inst) (key value : String) : List Inst :=
  is.filter fun i => instParam i key == value

/-- The option set of the `geneos.Update` invocation the update command
builds (update.go lines 102-107). -/
structure UpdateArgs where
  version : String
  basename : String
  force : Bool
  restart : Bool
deriving DecidableEq, Repr

/-- What a run of the `geneos package update` command did: whether the
protected-instance warning fired, which instances `instance.Stop` was called
on (and with which force flag), which were scheduled for restart, and the
`geneos.Update` call made, if any. -/
structure UpdateCmdResult where
  warned : Bool
  stopAttempts : List Inst
  stopForce : Bool
  restarts : List Inst
  updateCall : Option UpdateArgs
deriving DecidableEq, Repr

/-- Shallow embedding of the `updateCmd` handler (update.go lines 73-109):
the protected-instance guard, the version argument override, the optional
stop loop over the instances bound to the base link (`stopOk i` says whether
`instance.Stop` returned nil for `i`; only those are scheduled for restart)
and the final `geneos.Update` call, whose `Force` option is the literal
`true`. -/
def runUpdateCmd (insts : List Inst) (flagVersion base : String)
    (flagForce flagRestart : Bool) (stopOk : Inst → Bool) (args : List String) :
    UpdateCmdResult :=
  let version := flagVersion
  let cs := MatchKeyValue insts "protected" "true"
  if cs.length > 0 ∧ flagForce = false then
    { warned := true, stopAttempts := [], stopForce := flagForce, restarts := [],
      updateCall := none }
  else
    let version := match args.head? with
      | some a => a
      | none => version
    let stops := if flagRestart then MatchKeyValue insts "version" base else []
    { warned := false, stopAttempts := stops, stopForce := flagForce,
      restarts := stops.filter stopOk,
      updateCall := some { version := version, basename := base, force := true,
                           restart := flagRestart } }

/-- Outcome of one `Signal` call: process already gone (`os.ErrProcessDone`),
permission denied (`syscall.EPERM`), or delivered (`nil`; any other error
value behaves identically to `nil` in every branch of `Stop`, which only
tests those two special cases). Modelled from the spec: `Signal` and `GetPID`
are not under `src/`; the spec describes the signalling outcomes (process
gone, not permitted, delivered) and binary termination polling. -/
inductive SigRes where
  | ok
  | done
  | eperm
deriving DecidableEq, Repr

/-- The error component of a `GetPID` poll: `some processDone` when the
process is gone, `none` when it is still running. -/
inductive PidErr where
  | processDone
deriving DecidableEq, Repr

/-- The abstract process environment a `Stop` run interacts with: the outcome
of the n-th `Signal` call and of the n-th `GetPID` poll, in call order. -/
structure ProcWorld where
  sig : Nat → SigRes
  gone : Nat → Bool

/-- An observable step of `Stop`: a SIGTERM, a SIGKILL, a fixed 250ms sleep,
or a `GetPID` poll. -/
inductive Ev where
  | term
  | kill
  | sleep
  | poll
deriving DecidableEq, Repr

/-- The `for i := 0; i < 10; i++` retry loop of `Stop` (part_005 lines
46-52): each iteration sleeps 250ms then re-sends SIGTERM, breaking when the
signal reports the process gone. Returns the events performed and the next
signal index. -/
def stopTermLoop (w : ProcWorld) (si : Nat) : Nat → List Ev × Nat
  | 0 => ([], si)
  | n + 1 =>
    if w.sig si = .done then ([.sleep, .term], si + 1)
    else
      let r := stopTermLoop w (si + 1) n
      (.sleep :: .term :: r.1, r.2)

/-- The SIGKILL tail of `Stop` (part_005 lines 60-70): send SIGKILL (a
process-gone result is success), sleep 250ms, poll once; the poll's error is
the result — `processDone` is mapped to success, and a still-running process
yields a nil poll error, which is likewise returned, as success. -/
def stopKillPhase (w : ProcWorld) (si pi : Nat) : List Ev × Option PidErr :=
  if w.sig si = .done then ([.kill], none)
  else
    let pe : Option PidErr := if w.gone pi then some .processDone else none
    if pe = some .processDone then ([.kill, .sleep, .poll], none)
    else ([.kill, .sleep, .poll], pe)

/-- Shallow embedding of `instance.Stop` (part_005 lines 35-71): the unforced
graceful path (initial SIGTERM with gone/EPERM treated as success, the
10-iteration retry loop, a termination poll) escalating into the SIGKILL
tail; with `force` set the graceful path is skipped entirely. Returns the
event trace and the error result. -/
def Stop (w : ProcWorld) (force : Bool) : List Ev × Option PidErr :=
  if force = false then
    let e0 := w.sig 0
    if e0 = .done then ([.term], none)
    else if e0 = .eperm then ([.term], none)
    else
      let r := stopTermLoop w 1 10
      if w.gone 0 then (.term :: r.1 ++ [.poll], none)
      else
        let k := stopKillPhase w r.2 1
        (.term :: r.1 ++ [.poll] ++ k.1, k.2)
  else
    stopKillPhase w 0 0

/-- A process environment in which the process never dies and every signal is
delivered normally. -/
def stubbornWorld : ProcWorld := ⟨fun _ => .ok, fun _ => false⟩

/-! ### Version resolution: `latest` (options.go lines 604-650).

String manipulation is embedded over `List Char` so that every definition
reduces structurally. -/

/-- Split a character list at a separator, Go `strings.Split` style: the
separator is dropped and empty fields are kept. -/
def splitOnChar (c : Char) : List Char → List (List Char)
  | [] => [[]]
  | x :: xs =>
    if x = c then [] :: splitOnChar c xs
    else
      match splitOnChar c xs with
      | [] => [[x]]
      | r :: rs => (x :: r) :: rs

/-- One dotted-version field must be non-empty and all digits. -/
def digitsField (s : List Char) : Bool :=
  !s.isEmpty && s.all (·.isDigit)

/-- Numeric value of a digit field. -/
def fieldNat (s : List Char) : Nat :=
  s.foldl (fun n c => 10 * n + (c.toNat - 48)) 0

/-- Modelled from the dotted-numeric core of the third-party version grammar
the source delegates to (`version.NewVersion`, matching the spec's "parsed as
a dotted numeric version"): a candidate parses when it is one or more
dot-separated, non-empty, all-digit fields; the result is the numeric segment
list. Anything else, including the empty string, is rejected. -/
def parseVersion (s : String) : Option (List Nat) :=
  let fs := splitOnChar '.' s.data
  if fs.all digitsField then some (fs.map fieldNat) else none

/-- Structural lexicographic comparison of numeric segment lists. -/
def lexCmp : List Nat → List Nat → Ordering
  | [], [] => .eq
  | [], _ :: _ => .lt
  | _ :: _, [] => .gt
  | a :: as, b :: bs =>
    if a < b then .lt else if b < a then .gt else lexCmp as bs

/-- Canonical form of a segment list: trailing zero segments dropped, so that
`1.2` and `1.2.0` compare equal, as under zero-padded segment precedence. -/
def canonVer (v : List Nat) : List Nat := (v.reverse.dropWhile (· == 0)).reverse

/-- Version precedence (the order behind `version.Collection`): `a ≤ b` iff
the canonical segment comparison is not `gt`. -/
def verLE (a b : List Nat) : Bool := lexCmp (canonVer a) (canonVer b) != Ordering.gt

/-- One element of the source's `versions` collection: the string handed to
the version parser (its `Original()`) and the parsed segments. -/
structure VEntry where
  vstr : String
  ver : List Nat
deriving DecidableEq, Repr

/-- Ascending insertion under `verLE`. -/
def insertV (x : VEntry) : List VEntry → List VEntry
  | [] => [x]
  | y :: ys => if verLE x.ver y.ver then x :: y :: ys else y :: insertV x ys

/-- The `sort.Sort(version.Collection(versions))` call: an ascending sort
under version precedence, modelled as insertion sort (the source then takes
the last, i.e. greatest, element). -/
def sortV : List VEntry → List VEntry
  | [] => []
  | x :: xs => insertV x (sortV xs)

/-- The first maximal run of letters in a name:
`strings.FieldsFunc(n, not-letter)` first field; empty when the name has no
letters. -/
def firstLetterRun (s : List Char) : List Char :=
  (s.dropWhile (fun c => !c.isAlpha)).takeWhile (·.isAlpha)

/-- Go `strings.TrimPrefix`: drop `p` from the front of `s` when it is a
prefix of `s`, otherwise return `s` unchanged. -/
def trimLead (p s : List Char) : List Char :=
  if s.take p.length = p then s.drop p.length else s

/-- The stripped form of a candidate name, as computed inside `latest`
(options.go lines 630-639): cut the leading letter run when the name has
one. -/
def stripName (n : String) : String :=
  let run := firstLetterRun n.data
  if run.isEmpty then n else ⟨trimLead run n.data⟩

/-- Assoc list with Go-map last-write-wins lookup (the `originals` map). -/
def lookupLast (m : List (String × String)) (k : String) : Option String :=
  (m.reverse.find? (fun p => p.1 == k)).map (·.2)

/-- One loop iteration of `latest` over a kept directory entry (options.go
lines 626-644): record the original name in the map, strip the letter prefix
recording the stripped spelling too, and append the parsed version when
parsing succeeds. The state is the `originals` map and the `versions`
collection. -/
def latestStep (st : List (String × String) × List VEntry) (n : String) :
    List (String × String) × List VEntry :=
  let om := st.1 ++ [(n, n)]
  let run := firstLetterRun n.data
  let p : String := stripName n
  let om := if run.isEmpty then om else om ++ [(p, n)]
  match parseVersion p with
  | some v => (om, st.2 ++ [⟨p, v⟩])
  | none => (om, st.2)

/-- The core of `latest` (options.go lines 604-650): fold the kept entries
through `latestStep`, sort the parsed versions ascending, and return the
original (pre-strip) directory name of the greatest one via the `originals`
map — the empty string when no candidate parsed. `skip` is the
`fn(d)`-continue predicate of the source; the regexp pre-filter is taken as
already applied to `names`. -/
def latest (names : List String) (skip : String → Bool) : String :=
  let st := (names.filter (fun n => !skip n)).foldl latestStep ([], [])
  match (sortV st.2).getLast? with
  | none => ""
  | some e => (lookupLast st.1 e.vstr).getD ""

/-! ### Archive entry handling: `Unarchive` (options.go lines 297-459) -/

/-- Slash-separated segments of a path. -/
def segsOf (s : String) : List String :=
  (splitOnChar '/' s.data).map (fun l => (⟨l⟩ : String))

/-- One segment step of Go's lexical path cleaning (`filepath.Clean` on a
`/`-separated path): drop empty and `.` segments, resolve `..` against the
(reversed) stack unless only `..`s remain. -/
def cleanStep (acc : List String) (seg : String) : List String :=
  if seg = "" ∨ seg = "." then acc
  else if seg = ".." then
    match acc with
    | [] => [".."]
    | t :: rest => if t = ".." then seg :: acc else rest
  else seg :: acc

/-- Lexical cleaning of a relative path's segments. -/
def cleanSegs (segs : List String) : List String := (segs.foldl cleanStep []).reverse

/-- Modelled from the spec: `host.CleanRelativePath` (not under `src/`)
sanitizes an archive entry path — "the unpack either sanitizes the path into
the tree or rejects the entry": the path is lexically cleaned, and rejected
(`none`) when it is absolute or escapes upward (cleans to a path starting
with `..`); a rejection aborts the unpack via `log.Fatal`, so the entry is
never materialized. -/
def CleanRelativePath (name : String) : Option (List String) :=
  if name.data.head? = some '/' then none
  else
    let segs := cleanSegs (segsOf name)
    if segs.head? = some ".." then none else some segs

/-- Go `strings.TrimPrefix` on strings. -/
def trimLeadStr (p s : String) : String := ⟨trimLead p.data s.data⟩

/-- The per-component entry-name strippers of `Unarchive` (options.go lines
363-378). -/
def fnname (ctName : String) (name : String) : String :=
  if ctName = "webserver" then name
  else if ctName = "fa2" then trimLeadStr "fix-analyser2/" name
  else if ctName = "fileagent" then trimLeadStr "agent/" name
  else trimLeadStr (ctName ++ "/") name

/-- The per-entry destination computation of the `Unarchive` stream loop
(options.go lines 394-400): strip the component prefix, skip entries whose
name becomes empty, sanitize the rest, and join it under the new version
directory. `some segs` means the entry (file, directory or symlink) is
materialized at `basedir/segs`; `none` means it is skipped or rejected. -/
def entryDest (ctName : String) (name : String) : Option (List String) :=
  let n := fnname ctName name
  if n = "" then none
  else CleanRelativePath n

/-- A product component as needed by `Unarchive`'s head: its canonical name
and its aliases. -/
structure Component where
  name : String
  aliases : List String
deriving DecidableEq, Repr

/-- Modelled from the spec: `ParseComponentName` (not under `src/`) resolves
a component name or alias against the component registry. -/
def ParseComponentName (reg : List Component) (s : String) : Option Component :=
  reg.find? (fun c => c.name == s || c.aliases.contains s)

/-- The `MatchVersion` check (options.go lines 652-656): the anchored
`\d+(\.\d+){0,2}` check. -/
def MatchVersion (v : String) : Bool :=
  let fs := splitOnChar '.' v.data
  fs.length ≤ 3 && fs.all digitsField

/-- The decision the head of `Unarchive` reaches: an `InvalidArgs`-style
error, a silent no-error return that unpacks nothing, or proceeding to
unpack a component and version. -/
inductive UnarchiveCheck where
  | invalidArgs
  | silentSkip
  | proceed (ct : Component) (version : String)
deriving DecidableEq, Repr

/-- The head of `Unarchive` (options.go lines 302-340), deciding component
and version: `parts` is the `archiveRE` submatch of the filename with its
component already resolved through `ParseComponentName` (`none` when the
regexp does not match); `override` is the `TYPE:VERSION` override string
(empty when absent). -/
def unarchiveCheck (reg : List Component) (ct : Component)
    (parts : Option (Component × String)) (override : String) : UnarchiveCheck :=
  if override = "" then
    match parts with
    | none => .invalidArgs
    | some (ctFile, version) =>
      if ct.name = "none" ∨ ct.name = "san" then .proceed ctFile version
      else if ct.name = ctFile.name then .proceed ct version
      else .silentSkip
  else
    match splitOnChar ':' override.data with
    | [] => .invalidArgs
    | [_] => .invalidArgs
    | t :: rest =>
      match ParseComponentName reg ⟨t⟩ with
      | none => .invalidArgs
      | some c =>
        let v : String := ⟨List.intercalate [':'] rest⟩
        if MatchVersion v then .proceed c v else .invalidArgs

/-- The error result of the decision (`invalidArgs` returns an error wrapping
`ErrInvalidArgs`; the other outcomes return nil). -/
def checkErr : UnarchiveCheck → Option Err
  | .invalidArgs => some .other
  | _ => none

/-- Whether the decision leads to any unpacking. -/
def checkUnpacks : UnarchiveCheck → Bool
  | .proceed _ _ => true
  | _ => false

/-! ### Theorems -/

/-- Claim C1: once `Update` has a resolved version `v` whose directory exists,
the link swap policy is: a link already at `v` is a success no-op regardless
of `force`; a present link at another version with `force` unset is a success
no-op; with `force` set the old link is removed and a new symlink to `v` is
created. -/
theorem update_swap_guard (fs : FS) (v : String) (force : Bool)
    (hdir : v ∈ fs.dirs) (hv : v ≠ "") :
    (fs.link = v → Update fs v force = (fs, [], none)) ∧
    (fs.link ≠ "" → fs.link ≠ v → force = false → Update fs v force = (fs, [], none)) ∧
    (fs.link ≠ v → force = true →
      Update fs v force = ({ link := v, dirs := fs.dirs }, [.remove, .symlink v], none)) := by
  refine ⟨fun hlink => ?_, fun hne hnv hf => ?_, fun hnv hf => ?_⟩
  · simp [Update, hv, hdir, hlink]
  · simp [Update, hv, hdir, hne, hnv, hf]
  · simp [Update, hv, hdir, hnv, hf]

/-- Witness for C1 at a concrete state: forced swap from `5.10.0` to `5.11.2`. -/
theorem update_swap_guard_witness :
    Update ⟨"5.10.0", ["5.10.0", "5.11.2"]⟩ "5.11.2" true =
      (⟨"5.11.2", ["5.10.0", "5.11.2"]⟩, [.remove, .symlink "5.11.2"], none) :=
  (update_swap_guard ⟨"5.10.0", ["5.10.0", "5.11.2"]⟩ "5.11.2" true (by decide)
    (by decide)).2.2 (by decide) rfl

/-- Claim C2: `Update` checks via `Stat` that the resolved version's directory
exists before touching the link, returning `NotExist` with no writes when it
does not; consequently a successful `Update` preserves the invariant that a
present base link targets an existing installed version directory. -/
theorem update_stat_guard_no_dangling (fs : FS) (v : String) (force : Bool) :
    (v ∉ fs.dirs → Update fs v force = (fs, [], some .notExist)) ∧
    (∀ fs' ws, (fs.link ≠ "" → fs.link ∈ fs.dirs) →
      Update fs v force = (fs', ws, none) → fs'.link ≠ "" → fs'.link ∈ fs'.dirs) := by
  constructor
  · intro hd
    by_cases hv : v = "" <;> simp [Update, hv, hd]
  · intro fs' ws hpre heq hne
    by_cases hv : v = ""
    · simp [Update, hv] at heq
    by_cases hd : v ∈ fs.dirs
    · rw [Update, if_neg hv, if_neg (by simpa using hd)] at heq
      split at heq
      · rw [Prod.ext_iff, Prod.ext_iff] at heq
        obtain ⟨h1, h2, -⟩ := heq
        subst h1
        exact hpre hne
      · rw [Prod.ext_iff, Prod.ext_iff] at heq
        obtain ⟨h1, -, -⟩ := heq
        subst h1
        simpa using hd
    · simp [Update, hv, hd] at heq

/-- Witness for C2: the stat guard fires on a missing `9.9.9`, and a present
link produced by a successful call targets an existing directory. -/
theorem update_stat_guard_no_dangling_witness :
    Update ⟨"", ["5.11.2"]⟩ "9.9.9" false = (⟨"", ["5.11.2"]⟩, [], some .notExist) ∧
    ("5.11.2" : String) ∈ ["5.11.2"] :=
  ⟨(update_stat_guard_no_dangling ⟨"", ["5.11.2"]⟩ "9.9.9" false).1 (by decide),
   (update_stat_guard_no_dangling ⟨"5.11.2", ["5.11.2"]⟩ "5.11.2" true).2
     ⟨"5.11.2", ["5.11.2"]⟩ [] (fun _ => by decide) (by decide) (by decide)⟩

/-- Claim C6 counterexample: in the component fan-out loop, the first target
fails with a non-`NotExist` error, yet the second target is still attempted
and the loop returns success — the error is not propagated and does not abort
the fan-out. -/
theorem fanout_propagation_counterexample :
    (fanoutNil failFirst [0, 1] []).err = none ∧
    (fanoutNil failFirst [0, 1] []).attempted = [0, 1] ∧
    (failFirst [] 0).2 = some Err.other :=
  ⟨rfl, rfl, rfl⟩

/-- Claim C6 amended: the fan-out loops attempt every target regardless of any
individual failure; non-`NotExist` failures are merely logged. The component
and related-component loops return success unconditionally, and the
multi-host loop returns exactly the error of its final target (the initial
value when there are no targets). -/
theorem fanout_swallow_all_policy :
    (∀ (α σ : Type) (f : σ → α → σ × Option Err) (ts : List α) (s : σ),
      (fanoutNil f ts s).attempted = ts ∧ (fanoutNil f ts s).err = none) ∧
    (∀ (α σ : Type) (f : σ → α → σ × Option Err) (ts : List α) (s : σ) (e0 : Option Err),
      (fanoutHosts f ts s e0).attempted = ts) ∧
    (∀ (α σ : Type) (f : σ → α → σ × Option Err) (s : σ) (e0 : Option Err),
      (fanoutHosts f ([] : List α) s e0).err = e0) ∧
    (∀ (α σ : Type) (f : σ → α → σ × Option Err) (ts : List α) (t : α) (s : σ)
      (e0 : Option Err),
      (fanoutHosts f (ts ++ [t]) s e0).err = (f (fanoutHosts f ts s e0).state t).2) := by
  refine ⟨fun α σ f ts => ?_, fun α σ f ts => ?_, fun α σ f s e0 => rfl, fun α σ f ts => ?_⟩
  · induction ts with
    | nil => intro s; exact ⟨rfl, rfl⟩
    | cons t rest ih =>
      intro s
      obtain ⟨h1, h2⟩ := ih (f s t).1
      simp [fanoutNil, h1]
  · induction ts with
    | nil => intro s e0; rfl
    | cons t rest ih => intro s e0; simpa [fanoutHosts] using ih (f s t).1 (f s t).2
  · induction ts with
    | nil =>
      intro t s e0
      simp [fanoutHosts]
    | cons a rest ih =>
      intro t s e0
      simpa [fanoutHosts] using ih t (f s a).1 (f s a).2

/-- The retry loop's trace contains at most `n` SIGTERMs and no SIGKILL and
no poll. -/
theorem stopTermLoop_shape (w : ProcWorld) :
    ∀ n si, (stopTermLoop w si n).1.count Ev.term ≤ n ∧
      Ev.kill ∉ (stopTermLoop w si n).1 ∧ Ev.poll ∉ (stopTermLoop w si n).1 := by
  intro n
  induction n with
  | zero => intro si; simp [stopTermLoop]
  | succ n ih =>
    intro si
    rw [stopTermLoop]
    split
    · simp
    · obtain ⟨h1, h2, h3⟩ := ih (si + 1)
      refine ⟨?_, ?_, ?_⟩
      · simp [List.count_cons]
        omega
      · simp [h2]
      · simp [h3]

/-- The SIGKILL tail always returns success, and its trace has exactly one
SIGKILL and no SIGTERM. -/
theorem stopKillPhase_shape (w : ProcWorld) (si pi : Nat) :
    (stopKillPhase w si pi).2 = none ∧
    (stopKillPhase w si pi).1.count Ev.kill = 1 ∧
    Ev.term ∉ (stopKillPhase w si pi).1 := by
  rw [stopKillPhase]
  split
  · simp
  · by_cases hg : w.gone pi <;> simp [hg]

/-- Claim C8: the unforced stop escalation is bounded and ordered: a first
SIGTERM whose gone/EPERM outcome is immediate success; otherwise at most 10
SIGTERM retries, at most one SIGKILL, every SIGTERM before any SIGKILL, at
most 12 signals in total, and failure is reported only if the final poll saw
the process still running. -/
theorem stop_unforced_escalation (w : ProcWorld) :
    ((w.sig 0 = .done ∨ w.sig 0 = .eperm) → Stop w false = ([.term], none)) ∧
    (Stop w false).1.count Ev.term ≤ 11 ∧
    (Stop w false).1.count Ev.kill ≤ 1 ∧
    (Stop w false).1.count Ev.term + (Stop w false).1.count Ev.kill ≤ 12 ∧
    (∃ a b, (Stop w false).1 = a ++ b ∧ Ev.kill ∉ a ∧ Ev.term ∉ b) ∧
    ((Stop w false).2 ≠ none → w.gone 1 = false) := by
  obtain ⟨l1, l2, l3⟩ := stopTermLoop_shape w 10 1
  obtain ⟨k1, k2, k3⟩ := stopKillPhase_shape w (stopTermLoop w 1 10).2 1
  by_cases h0 : w.sig 0 = .done
  · refine ⟨fun _ => by simp [Stop, h0], ?_⟩
    simp [Stop, h0]
    exact ⟨[Ev.term], [], by simp⟩
  by_cases h0' : w.sig 0 = .eperm
  · refine ⟨fun _ => by simp [Stop, h0, h0'], ?_⟩
    simp [Stop, h0, h0']
    exact ⟨[Ev.term], [], by simp⟩
  refine ⟨fun hor => absurd hor (by simp [h0, h0']), ?_⟩
  by_cases hg : w.gone 0
  · simp only [Stop, if_pos rfl, if_neg h0, if_neg h0', if_pos hg]
    refine ⟨?_, ?_, ?_, ?_, ?_⟩
    · simp [List.count_cons, List.count_append]
      omega
    · simp [List.count_cons, List.count_append, List.count_eq_zero_of_not_mem l2]
    · simp [List.count_cons, List.count_append, List.count_eq_zero_of_not_mem l2]
      omega
    · exact ⟨Ev.term :: (stopTermLoop w 1 10).1 ++ [Ev.poll], [],
        by simp, by simp [l2], by simp⟩
    · simp
  · simp only [Stop, if_pos rfl, if_neg h0, if_neg h0', if_neg hg]
    refine ⟨?_, ?_, ?_, ?_, ?_⟩
    · simp [List.count_cons, List.count_append,
        List.count_eq_zero_of_not_mem k3]
      omega
    · simp [List.count_cons, List.count_append,
        List.count_eq_zero_of_not_mem l2, k2]
    · simp [List.count_cons, List.count_append,
        List.count_eq_zero_of_not_mem l2, List.count_eq_zero_of_not_mem k3, k2]
      omega
    · exact ⟨Ev.term :: (stopTermLoop w 1 10).1 ++ [Ev.poll],
        (stopKillPhase w (stopTermLoop w 1 10).2 1).1,
        by simp, by simp [l2], k3⟩
    · simp [k1]

/-- Witness for C8: a process whose first SIGTERM reports it already gone is
treated as successfully stopped with a single signal. -/
theorem stop_unforced_escalation_witness :
    Stop ⟨fun _ => SigRes.done, fun _ => false⟩ false = ([.term], none) :=
  (stop_unforced_escalation ⟨fun _ => SigRes.done, fun _ => false⟩).1 (Or.inl rfl)

/-- Claim C10 counterexample: with `force` set against a process that
survives the kill signal, `Stop` performs kill-sleep-poll and still returns
success even though the process is not gone — success is not returned
"exactly when the process is gone". -/
theorem stop_forced_counterexample :
    (Stop stubbornWorld true).2 = none ∧ stubbornWorld.gone 0 = false ∧
    (Stop stubbornWorld true).1 = [.kill, .sleep, .poll] :=
  ⟨rfl, rfl, rfl⟩

/-- Claim C10 amended: with `force` set, `Stop` skips the graceful path (no
SIGTERM, no retry loop) and immediately sends SIGKILL; if the signal reports
the process already gone it returns success at once, and otherwise it sleeps
250ms, polls once, and returns the poll's error — success both when the
process is gone and when it is still running. -/
theorem stop_forced_policy (w : ProcWorld) :
    Ev.term ∉ (Stop w true).1 ∧
    (w.sig 0 = .done → Stop w true = ([.kill], none)) ∧
    (w.sig 0 ≠ .done →
      (Stop w true).1 = [.kill, .sleep, .poll] ∧ (Stop w true).2 = none) := by
  have hs : Stop w true = stopKillPhase w 0 0 := by simp [Stop]
  obtain ⟨k1, k2, k3⟩ := stopKillPhase_shape w 0 0
  refine ⟨hs ▸ k3, fun hd => ?_, fun hd => ?_⟩
  · rw [hs, stopKillPhase, if_pos hd]
  · rw [hs]
    refine ⟨?_, k1⟩
    rw [stopKillPhase, if_neg hd]
    by_cases hg : w.gone 0 <;> simp [hg]

/-- Witness for C10 at a concrete environment: the process survives SIGKILL,
yet the forced stop reports success after kill-sleep-poll. -/
theorem stop_forced_policy_witness :
    (Stop stubbornWorld true).1 = [.kill, .sleep, .poll] ∧
    (Stop stubbornWorld true).2 = none :=
  (stop_forced_policy stubbornWorld).2.2 (by decide)

/-- Claim C5: when an instance bound to the base link being changed is
protected and `--force` is not given, the update command stops at the guard:
it warns, calls `instance.Stop` on nothing, restarts nothing and never
invokes `geneos.Update`. -/
theorem updatecmd_protected_guard (insts : List Inst) (v b : String)
    (rst : Bool) (stopOk : Inst → Bool) (args : List String) (i : Inst)
    (hi : i ∈ insts) (_hb : i.version = b) (hp : i.prot = true) :
    runUpdateCmd insts v b false rst stopOk args =
      { warned := true, stopAttempts := [], stopForce := false, restarts := [],
        updateCall := none } := by
  have hmem : i ∈ MatchKeyValue insts "protected" "true" := by
    simp [MatchKeyValue, List.mem_filter, instParam, hp, hi]
  have hlen : 0 < (MatchKeyValue insts "protected" "true").length := by
    cases hml : MatchKeyValue insts "protected" "true" with
    | nil => rw [hml] at hmem; simp at hmem
    | cons a l => simp
  simp only [runUpdateCmd]
  split
  · rfl
  · next hcond => exact absurd ⟨hlen, by trivial⟩ hcond

/-- Witness for C5: one protected instance on the base link aborts the
unforced update before any stop or link change. -/
theorem updatecmd_protected_guard_witness :
    runUpdateCmd [⟨"gw1", true, "active_prod"⟩] "latest" "active_prod" false true
      (fun _ => true) [] =
      { warned := true, stopAttempts := [], stopForce := false, restarts := [],
        updateCall := none } :=
  updatecmd_protected_guard [⟨"gw1", true, "active_prod"⟩] "latest" "active_prod"
    true (fun _ => true) [] ⟨"gw1", true, "active_prod"⟩ (by decide) rfl rfl

/-- Claim C9: the update command always passes `Force(true)` to
`geneos.Update`, whatever the user's `--force` flag was; the user flag is
only forwarded to the stop calls (and the protected guard). -/
theorem updatecmd_forces_update (insts : List Inst) (v b : String)
    (frc rst : Bool) (stopOk : Inst → Bool) (args : List String) :
    (∀ a, (runUpdateCmd insts v b frc rst stopOk args).updateCall = some a →
      a.force = true) ∧
    (runUpdateCmd insts v b frc rst stopOk args).stopForce = frc := by
  constructor
  · intro a ha
    simp only [runUpdateCmd] at ha
    split at ha
    · simp at ha
    · cases ha
      rfl
  · simp only [runUpdateCmd]
    split <;> rfl

/-- Witness for C9: with no protected instances and `--force` left false, the
`geneos.Update` call is still made with force true. -/
theorem updatecmd_forces_update_witness :
    (UpdateArgs.mk "latest" "active_prod" true true).force = true :=
  (updatecmd_forces_update [] "latest" "active_prod" false true (fun _ => true)
    []).1 ⟨"latest", "active_prod", true, true⟩ rfl

theorem lexCmp_self (l : List Nat) : lexCmp l l = .eq := by
  induction l with
  | nil => rfl
  | cons a as ih => simp [lexCmp, ih]

theorem verLE_iff (a b : List Nat) :
    verLE a b = true ↔ lexCmp (canonVer a) (canonVer b) ≠ .gt := by
  unfold verLE
  cases hc : lexCmp (canonVer a) (canonVer b) <;> decide

theorem verLE_refl (a : List Nat) : verLE a a = true := by
  rw [verLE_iff, lexCmp_self]
  simp

theorem lexCmp_swap (a b : List Nat) : (lexCmp a b).swap = lexCmp b a := by
  induction a generalizing b with
  | nil => cases b <;> rfl
  | cons x as ih =>
    cases b with
    | nil => rfl
    | cons y bs =>
      simp only [lexCmp]
      rcases Nat.lt_trichotomy x y with h | h | h
      · rw [if_pos h, if_neg (Nat.lt_asymm h), if_pos h]
        rfl
      · rw [if_neg (by omega), if_neg (by omega), if_neg (by omega),
          if_neg (by omega)]
        exact ih bs
      · rw [if_neg (Nat.lt_asymm h), if_pos h, if_pos h]
        rfl

theorem verLE_total (a b : List Nat) : verLE a b = true ∨ verLE b a = true := by
  rw [verLE_iff, verLE_iff]
  by_cases h : lexCmp (canonVer a) (canonVer b) = Ordering.gt
  · right
    rw [← lexCmp_swap, h]
    decide
  · left
    exact h

theorem lexCmp_trans (a : List Nat) :
    ∀ b c : List Nat, lexCmp a b ≠ .gt → lexCmp b c ≠ .gt → lexCmp a c ≠ .gt := by
  induction a with
  | nil =>
    intro b c h1 h2
    cases c <;> simp [lexCmp]
  | cons x as ih =>
    intro b c h1 h2
    cases c with
    | nil =>
      exfalso
      cases b with
      | nil => exact h1 rfl
      | cons y bs => exact h2 rfl
    | cons z cs =>
      cases b with
      | nil => exact absurd rfl h1
      | cons y bs =>
        simp only [lexCmp] at h1 h2 ⊢
        have hxy : ¬ y < x := by
          intro h
          rw [if_neg (Nat.lt_asymm h), if_pos h] at h1
          exact h1 rfl
        have hyz : ¬ z < y := by
          intro h
          rw [if_neg (Nat.lt_asymm h), if_pos h] at h2
          exact h2 rfl
        rw [if_neg (show ¬ z < x by omega)]
        by_cases hxz : x < z
        · rw [if_pos hxz]
          simp
        · rw [if_neg hxz]
          have hx : x = y := by omega
          have hy : y = z := by omega
          subst hx
          subst hy
          rw [if_neg (by omega), if_neg (by omega)] at h1 h2
          exact ih bs cs h1 h2

theorem verLE_trans {a b c : List Nat} (h1 : verLE a b = true) (h2 : verLE b c = true) :
    verLE a c = true := by
  rw [verLE_iff] at h1 h2 ⊢
  exact lexCmp_trans _ _ _ h1 h2

theorem mem_insertV (x a : VEntry) (l : List VEntry) :
    a ∈ insertV x l ↔ a = x ∨ a ∈ l := by
  induction l with
  | nil => simp [insertV]
  | cons y ys ih =>
    rw [insertV]
    split
    · simp [List.mem_cons]
    · simp only [List.mem_cons, ih]
      tauto

theorem insertV_ne_nil (x : VEntry) (l : List VEntry) : insertV x l ≠ [] := by
  cases l with
  | nil => simp [insertV]
  | cons y ys =>
    rw [insertV]
    split <;> simp

theorem getLast?_cons_ne {α : Type} (a : α) (l : List α) (h : l ≠ []) :
    (a :: l).getLast? = l.getLast? := by
  cases l with
  | nil => exact absurd rfl h
  | cons b bs => rw [List.getLast?_cons_cons]

theorem getLast?_mem_list {α : Type} : ∀ (l : List α) (m : α), l.getLast? = some m → m ∈ l := by
  intro l
  induction l with
  | nil => intro m hm; simp at hm
  | cons a as ih =>
    intro m hm
    cases as with
    | nil =>
      simp at hm
      simp [hm]
    | cons b bs =>
      rw [List.getLast?_cons_cons] at hm
      exact List.mem_cons_of_mem _ (ih m hm)

theorem insertV_getLast (x : VEntry) : ∀ (l : List VEntry),
    (insertV x l).getLast? = some x ∨ (insertV x l).getLast? = l.getLast? := by
  intro l
  induction l with
  | nil => left; rfl
  | cons y ys ih =>
    rw [insertV]
    split
    · right
      rw [List.getLast?_cons_cons]
    · rw [getLast?_cons_ne _ _ (insertV_ne_nil x ys)]
      cases ys with
      | nil => left; rfl
      | cons w ws =>
        rcases ih with h | h
        · left; exact h
        · right
          rw [h, List.getLast?_cons_cons]

theorem insertV_bound (x : VEntry) : ∀ (l : List VEntry),
    (∀ y ∈ l, ∀ m, l.getLast? = some m → verLE y.ver m.ver = true) →
    ∀ y ∈ insertV x l, ∀ m, (insertV x l).getLast? = some m → verLE y.ver m.ver = true := by
  intro l
  induction l with
  | nil =>
    intro _ y hy m hm
    simp [insertV] at hy hm
    rw [hy, ← hm]
    exact verLE_refl _
  | cons z zs ih =>
    intro hl y hy m hm
    rw [insertV] at hy hm
    by_cases hle : verLE x.ver z.ver = true
    · rw [if_pos hle] at hy hm
      rw [List.getLast?_cons_cons] at hm
      rcases List.mem_cons.mp hy with hyz | hy'
      · rw [hyz]
        exact verLE_trans hle (hl z (List.mem_cons_self _ _) m hm)
      · exact hl y hy' m hm
    · rw [if_neg hle] at hy hm
      rw [getLast?_cons_ne _ _ (insertV_ne_nil x zs)] at hm
      have hzs : ∀ y ∈ zs, ∀ m, zs.getLast? = some m → verLE y.ver m.ver = true := by
        intro u hu m' hm'
        refine hl u (List.mem_cons_of_mem _ hu) m' ?_
        cases zs with
        | nil => simp at hm'
        | cons w ws => rw [List.getLast?_cons_cons]; exact hm'
      rcases List.mem_cons.mp hy with hyz | hy'
      · -- y = z: bound z by the last of insertV x zs
        rw [hyz]
        rcases insertV_getLast x zs with h | h
        · rw [h] at hm
          cases hm
          rcases verLE_total z.ver x.ver with hvt | hvt
          · exact hvt
          · exact absurd hvt hle
        · rw [h] at hm
          exact hl z (List.mem_cons_self _ _) m
            (by cases zs with
              | nil => simp at hm
              | cons w ws => rw [List.getLast?_cons_cons]; exact hm)
      · exact ih hzs y hy' m hm

theorem sortV_last_bound : ∀ (l : List VEntry),
    ∀ y ∈ sortV l, ∀ m, (sortV l).getLast? = some m → verLE y.ver m.ver = true := by
  intro l
  induction l with
  | nil => intro y hy; simp [sortV] at hy
  | cons x xs ih =>
    rw [sortV]
    exact insertV_bound x (sortV xs) ih

theorem mem_sortV (a : VEntry) : ∀ (l : List VEntry), a ∈ sortV l ↔ a ∈ l := by
  intro l
  induction l with
  | nil => simp [sortV]
  | cons x xs ih =>
    rw [sortV, mem_insertV]
    simp [ih]

theorem sortV_ne_nil (l : List VEntry) (h : l ≠ []) : sortV l ≠ [] := by
  cases l with
  | nil => exact absurd rfl h
  | cons x xs => rw [sortV]; exact insertV_ne_nil _ _

theorem latestStep_snd (st0 : List (String × String) × List VEntry) (n : String)
    (e : VEntry) :
    e ∈ (latestStep st0 n).2 ↔
      e ∈ st0.2 ∨ (e.vstr = stripName n ∧ parseVersion (stripName n) = some e.ver) := by
  obtain ⟨es, ev⟩ := e
  simp only [latestStep]
  cases hp : parseVersion (stripName n) with
  | none => simp [hp]
  | some v =>
    simp [hp]
    constructor
    · rintro (h | ⟨h1, h2⟩)
      · exact Or.inl h
      · subst h1
        subst h2
        exact Or.inr ⟨rfl, rfl⟩
    · rintro (h | ⟨h1, h2⟩)
      · exact Or.inl h
      · cases h2
        exact Or.inr ⟨h1, rfl⟩

theorem latestStep_fst (st0 : List (String × String) × List VEntry) (n : String) :
    (latestStep st0 n).1 = st0.1 ++ [(n, n)] ++
      (if (firstLetterRun n.data).isEmpty then [] else [(stripName n, n)]) := by
  simp only [latestStep]
  cases hp : parseVersion (stripName n) <;>
    by_cases hr : (firstLetterRun n.data).isEmpty <;> simp [hp, hr]

theorem latest_entries (ns : List String) :
    ∀ (st0 : List (String × String) × List VEntry) (e : VEntry),
      e ∈ (ns.foldl latestStep st0).2 ↔
        e ∈ st0.2 ∨ ∃ n ∈ ns, e.vstr = stripName n ∧
          parseVersion (stripName n) = some e.ver := by
  induction ns with
  | nil => intro st0 e; simp
  | cons n ns ih =>
    intro st0 e
    rw [List.foldl_cons, ih, latestStep_snd]
    constructor
    · rintro ((h | h) | ⟨m, hm, h⟩)
      · exact Or.inl h
      · exact Or.inr ⟨n, List.mem_cons_self _ _, h⟩
      · exact Or.inr ⟨m, List.mem_cons_of_mem _ hm, h⟩
    · rintro (h | ⟨m, hm, h⟩)
      · exact Or.inl (Or.inl h)
      · rcases List.mem_cons.mp hm with hmn | hm'
        · exact Or.inl (Or.inr (hmn ▸ h))
        · exact Or.inr ⟨m, hm', h⟩

theorem latest_map_mono (ns : List String) :
    ∀ (st0 : List (String × String) × List VEntry) (pr : String × String),
      pr ∈ st0.1 → pr ∈ (ns.foldl latestStep st0).1 := by
  induction ns with
  | nil => intro st0 pr h; simpa using h
  | cons n ns ih =>
    intro st0 pr h
    rw [List.foldl_cons]
    apply ih
    rw [latestStep_fst]
    simp [h]

theorem latest_map_complete (ns : List String) :
    ∀ (st0 : List (String × String) × List VEntry) (n : String), n ∈ ns →
      (stripName n, n) ∈ (ns.foldl latestStep st0).1 := by
  induction ns with
  | nil => intro st0 n h; simp at h
  | cons a as ih =>
    intro st0 n h
    rcases List.mem_cons.mp h with hna | h'
    · subst hna
      rw [List.foldl_cons]
      apply latest_map_mono
      rw [latestStep_fst]
      by_cases hr : (firstLetterRun n.data).isEmpty
      · have hs : stripName n = n := by simp [stripName, hr]
        rw [hs]
        simp [hr]
      · simp [hr]
    · rw [List.foldl_cons]
      exact ih _ n h'

theorem latest_map_sound (ns : List String) :
    ∀ (st0 : List (String × String) × List VEntry) (pr : String × String),
      pr ∈ (ns.foldl latestStep st0).1 →
      pr ∈ st0.1 ∨ (pr.2 ∈ ns ∧ (pr.1 = pr.2 ∨ pr.1 = stripName pr.2)) := by
  induction ns with
  | nil => intro st0 pr h; left; simpa using h
  | cons n ns ih =>
    intro st0 pr h
    rw [List.foldl_cons] at h
    rcases ih _ pr h with h' | h'
    · rw [latestStep_fst] at h'
      by_cases hr : (firstLetterRun n.data).isEmpty
      · rw [if_pos hr] at h'
        simp only [List.append_nil, List.mem_append, List.mem_singleton] at h'
        rcases h' with h'' | h''
        · left; exact h''
        · right
          exact ⟨by simp [h''], Or.inl (by simp [h''])⟩
      · rw [if_neg hr] at h'
        simp only [List.mem_append, List.mem_singleton] at h'
        rcases h' with (h'' | h'') | h''
        · left; exact h''
        · right
          exact ⟨by simp [h''], Or.inl (by simp [h''])⟩
        · right
          exact ⟨by simp [h''], Or.inr (by simp [h''])⟩
    · right
      exact ⟨List.mem_cons_of_mem _ h'.1, h'.2⟩

theorem lookupLast_isSome (m : List (String × String)) (k v : String)
    (h : (k, v) ∈ m) : ∃ o, lookupLast m k = some o := by
  have hmem : (k, v) ∈ m.reverse := List.mem_reverse.mpr h
  have : (m.reverse.find? (fun p => p.1 == k)).isSome := by
    rw [List.find?_isSome]
    exact ⟨(k, v), hmem, by simp⟩
  obtain ⟨pr, hpr⟩ := Option.isSome_iff_exists.mp this
  exact ⟨pr.2, by simp [lookupLast, hpr]⟩

theorem lookupLast_sound (m : List (String × String)) (k o : String)
    (h : lookupLast m k = some o) : (k, o) ∈ m := by
  rw [lookupLast] at h
  obtain ⟨pr, hfind, hsnd⟩ := Option.map_eq_some'.mp h
  have h1 : pr.1 = k := by
    have := List.find?_some hfind
    simpa using this
  have h2 : pr ∈ m := List.mem_reverse.mp (List.mem_of_find?_eq_some hfind)
  have : pr = (k, o) := by
    obtain ⟨a, b⟩ := pr
    simp at h1 hsnd
    rw [h1, hsnd]
  rwa [this] at h2

theorem not_alpha_of_digit (c : Char) (h : c.isDigit = true) : c.isAlpha = false := by
  simp only [Char.isDigit, Char.isAlpha, Char.isUpper, Char.isLower, decide_eq_true_eq,
    Bool.and_eq_true, Bool.or_eq_false_iff, Bool.and_eq_false_iff, UInt32.le_def,
    BitVec.le_def, decide_eq_false_iff_not, not_le,
    show (UInt32.toBitVec 48).toNat = 48 from rfl,
    show (UInt32.toBitVec 57).toNat = 57 from rfl,
    show (UInt32.toBitVec 65).toNat = 65 from rfl,
    show (UInt32.toBitVec 90).toNat = 90 from rfl,
    show (UInt32.toBitVec 97).toNat = 97 from rfl,
    show (UInt32.toBitVec 122).toNat = 122 from rfl] at h ⊢
  omega

theorem mem_takeWhile (p : Char → Bool) :
    ∀ (l : List Char) (a : Char), a ∈ l.takeWhile p → p a = true := by
  intro l
  induction l with
  | nil => simp
  | cons x xs ih =>
    intro a ha
    rw [List.takeWhile_cons] at ha
    by_cases hp : p x
    · rw [if_pos hp] at ha
      rcases List.mem_cons.mp ha with hax | ha'
      · rw [hax]; exact hp
      · exact ih a ha'
    · rw [if_neg hp] at ha
      simp at ha

theorem parseVersion_head_digit (s : String) (v : List Nat)
    (h : parseVersion s = some v) : ∃ c cs, s.data = c :: cs ∧ c.isDigit = true := by
  simp only [parseVersion] at h
  by_cases hall : (splitOnChar '.' s.data).all digitsField
  · cases hd : s.data with
    | nil =>
      rw [hd] at hall
      simp [splitOnChar, digitsField] at hall
    | cons c cs =>
      refine ⟨c, cs, rfl, ?_⟩
      rw [hd] at hall
      simp only [splitOnChar] at hall
      by_cases hc : c = '.'
      · rw [if_pos hc] at hall
        simp [digitsField] at hall
      · rw [if_neg hc] at hall
        cases hsp : splitOnChar '.' cs with
        | nil =>
          rw [hsp] at hall
          simp [digitsField] at hall
          exact hall
        | cons r rs =>
          rw [hsp] at hall
          simp [digitsField] at hall
          exact hall.1.1
  · rw [if_neg hall] at h
    exact absurd h (by simp)

theorem stripName_eq_self (s : String) (c : Char) (cs : List Char)
    (hd : s.data = c :: cs) (hc : c.isAlpha = false) : stripName s = s := by
  have htrim : trimLead (firstLetterRun s.data) s.data = s.data := by
    rw [trimLead]
    cases hrun : firstLetterRun s.data with
    | nil => simp
    | cons r rr =>
      rw [if_neg ?_]
      intro hteq
      have hr_alpha : r.isAlpha = true := by
        have hrmem : r ∈ firstLetterRun s.data := by
          rw [hrun]
          exact List.mem_cons_self _ _
        simp only [firstLetterRun] at hrmem
        exact mem_takeWhile _ _ _ hrmem
      rw [hd] at hteq
      simp only [List.length_cons, List.take_succ_cons] at hteq
      have hcr : c = r := by
        have := congrArg List.head? hteq
        simpa using this
      rw [hcr, hr_alpha] at hc
      simp at hc
  simp only [stripName]
  rw [htrim]
  split
  · rfl
  · rfl

/-- Claim C3: `latest` strips the leading letter prefix of each candidate,
parses the remainder as a dotted numeric version, silently drops unparseable
candidates, and returns the original pre-strip name of a maximum-version
candidate; in particular on `{5.9.9, 5.11.2, GA5.10.0, notaversion}` it
returns `5.11.2`, with `notaversion` excluded without failing. -/
theorem latest_resolves_max :
    (∀ (names : List String) (skip : String → Bool),
      (∃ n ∈ names, skip n = false ∧ (parseVersion (stripName n)).isSome) →
      ∃ n ∈ names, skip n = false ∧ ∃ v, parseVersion (stripName n) = some v ∧
        latest names skip = n ∧
        ∀ m ∈ names, skip m = false → ∀ w, parseVersion (stripName m) = some w →
          verLE w v = true) ∧
    latest ["5.9.9", "5.11.2", "GA5.10.0", "notaversion"] (fun _ => false) = "5.11.2" ∧
    parseVersion (stripName "notaversion") = none ∧
    stripName "GA5.10.0" = "5.10.0" := by
  refine ⟨?_, by decide, by decide, by decide⟩
  rintro names skip ⟨n₀, hn₀, hs₀, hp₀⟩
  have hn₀' : n₀ ∈ names.filter (fun n => !skip n) := by
    simp [List.mem_filter, hn₀, hs₀]
  obtain ⟨v₀, hv₀⟩ := Option.isSome_iff_exists.mp hp₀
  have he₀ : (⟨stripName n₀, v₀⟩ : VEntry) ∈
      ((names.filter (fun n => !skip n)).foldl latestStep ([], [])).2 := by
    rw [latest_entries]
    exact Or.inr ⟨n₀, hn₀', rfl, hv₀⟩
  have hne2 : ((names.filter (fun n => !skip n)).foldl latestStep ([], [])).2 ≠ [] := by
    intro hemp
    rw [hemp] at he₀
    simp at he₀
  have hsne := sortV_ne_nil _ hne2
  obtain ⟨em, hem⟩ : ∃ em,
      (sortV ((names.filter (fun n => !skip n)).foldl latestStep ([], [])).2).getLast?
        = some em := by
    cases hl : (sortV ((names.filter (fun n => !skip n)).foldl latestStep ([], [])).2).getLast? with
    | none => exact absurd (List.getLast?_eq_none_iff.mp hl) hsne
    | some e => exact ⟨e, rfl⟩
  have hmem : em ∈ ((names.filter (fun n => !skip n)).foldl latestStep ([], [])).2 :=
    (mem_sortV em _).mp (getLast?_mem_list _ _ hem)
  obtain ⟨n₁, hn₁, hvstr, hver⟩ : ∃ n₁ ∈ names.filter (fun n => !skip n),
      em.vstr = stripName n₁ ∧ parseVersion (stripName n₁) = some em.ver := by
    have := (latest_entries (names.filter (fun n => !skip n)) ([], []) em).mp hmem
    simpa using this
  have hbind : (em.vstr, n₁) ∈
      ((names.filter (fun n => !skip n)).foldl latestStep ([], [])).1 := by
    rw [hvstr]
    exact latest_map_complete _ _ n₁ hn₁
  obtain ⟨o, ho⟩ := lookupLast_isSome _ em.vstr n₁ hbind
  have hsound := lookupLast_sound _ em.vstr o ho
  rcases latest_map_sound _ _ _ hsound with habs | ⟨honns, hcase⟩
  · simp at habs
  have ho_names : o ∈ names ∧ skip o = false := by
    simpa [List.mem_filter] using honns
  have hpv : parseVersion em.vstr = some em.ver := by
    rw [hvstr]
    exact hver
  have hparse_o : parseVersion (stripName o) = some em.ver := by
    rcases hcase with hco | hco
    · obtain ⟨c, cs, hd, hcdig⟩ := parseVersion_head_digit _ _ hpv
      have hss : stripName em.vstr = em.vstr :=
        stripName_eq_self em.vstr c cs hd (not_alpha_of_digit c hcdig)
      simp only at hco
      rw [← hco, hss]
      exact hpv
    · simp only at hco
      rw [← hco]
      exact hpv
  refine ⟨o, ho_names.1, ho_names.2, em.ver, hparse_o, ?_, ?_⟩
  · simp only [latest]
    rw [hem]
    simp only [Option.getD]
    rw [ho]
  · intro m hm hsm w hw
    have hmem_m : (⟨stripName m, w⟩ : VEntry) ∈
        ((names.filter (fun n => !skip n)).foldl latestStep ([], [])).2 := by
      rw [latest_entries]
      exact Or.inr ⟨m, by simp [List.mem_filter, hm, hsm], rfl, hw⟩
    have := sortV_last_bound _ ⟨stripName m, w⟩ ((mem_sortV _ _).mpr hmem_m) em hem
    simpa using this

/-- Witness for C3: the general resolution theorem applied to the singleton
candidate list `5.11.2`. -/
theorem latest_resolves_max_witness :
    ∃ n ∈ ["5.11.2"], (fun (_ : String) => false) n = false ∧ ∃ v,
      parseVersion (stripName n) = some v ∧
      latest ["5.11.2"] (fun _ => false) = n ∧
      ∀ m ∈ ["5.11.2"], (fun (_ : String) => false) m = false → ∀ w,
        parseVersion (stripName m) = some w → verLE w v = true :=
  latest_resolves_max.1 ["5.11.2"] (fun _ => false)
    ⟨"5.11.2", by decide, rfl, by decide⟩

theorem cleanStep_inv (acc : List String) (seg : String)
    (h : ∃ g d, acc = g ++ List.replicate d ".." ∧
      ∀ s ∈ g, s ≠ "" ∧ s ≠ "." ∧ s ≠ "..") :
    ∃ g d, cleanStep acc seg = g ++ List.replicate d ".." ∧
      ∀ s ∈ g, s ≠ "" ∧ s ≠ "." ∧ s ≠ ".." := by
  obtain ⟨g, d, hacc, hgood⟩ := h
  by_cases h1 : seg = "" ∨ seg = "."
  · rcases h1 with h | h <;> subst h <;> exact ⟨g, d, hacc, hgood⟩
  by_cases h2 : seg = ".."
  · subst h2
    cases acc with
    | nil => exact ⟨[], 1, rfl, by simp⟩
    | cons t rest =>
      have hred : cleanStep (t :: rest) ".." =
          if t = ".." then ".." :: t :: rest else rest := rfl
      rw [hred]
      by_cases ht : t = ".."
      · rw [if_pos ht]
        have hg : g = [] := by
          cases hg : g with
          | nil => rfl
          | cons a as =>
            exfalso
            rw [hg] at hacc
            have hta : t = a := by simpa using congrArg List.head? hacc
            exact (hgood a (by simp [hg])).2.2 (by rw [← hta, ht])
        rw [hg] at hacc
        simp only [List.nil_append] at hacc
        refine ⟨[], d + 1, ?_, by simp⟩
        rw [List.nil_append, List.replicate_succ, hacc]
      · rw [if_neg ht]
        cases hg : g with
        | nil =>
          exfalso
          rw [hg] at hacc
          simp only [List.nil_append] at hacc
          cases d with
          | zero => simp [List.replicate] at hacc
          | succ d' =>
            rw [List.replicate_succ] at hacc
            have : t = ".." := by simpa using congrArg List.head? hacc
            exact ht this
        | cons a as =>
          rw [hg] at hacc
          simp only [List.cons_append] at hacc
          have hta : t = a := (List.cons.injEq _ _ _ _).mp hacc |>.1
          have hrest : rest = as ++ List.replicate d ".." :=
            (List.cons.injEq _ _ _ _).mp hacc |>.2
          exact ⟨as, d, hrest, fun s hs => hgood s (by simp [hg, hs])⟩
  · have hred : cleanStep acc seg = seg :: acc := by
      rw [cleanStep.eq_def, if_neg h1, if_neg h2]
    rw [hred]
    refine ⟨seg :: g, d, by rw [hacc, List.cons_append], ?_⟩
    intro s hs
    rcases List.mem_cons.mp hs with hss | hs'
    · rw [hss]
      refine ⟨?_, ?_, h2⟩ <;> intro hbad <;> exact h1 (by simp [hbad])
    · exact hgood s hs'

theorem cleanSegs_inv (segs : List String) :
    ∃ g d, segs.foldl cleanStep [] = g ++ List.replicate d ".." ∧
      ∀ s ∈ g, s ≠ "" ∧ s ≠ "." ∧ s ≠ ".." := by
  suffices h : ∀ (acc : List String),
      (∃ g d, acc = g ++ List.replicate d ".." ∧ ∀ s ∈ g, s ≠ "" ∧ s ≠ "." ∧ s ≠ "..") →
      ∃ g d, segs.foldl cleanStep acc = g ++ List.replicate d ".." ∧
        ∀ s ∈ g, s ≠ "" ∧ s ≠ "." ∧ s ≠ ".." by
    exact h [] ⟨[], 0, by simp, by simp⟩
  induction segs with
  | nil => intro acc h; simpa using h
  | cons seg rest ih =>
    intro acc h
    rw [List.foldl_cons]
    exact ih _ (cleanStep_inv acc seg h)

/-- Claim C4: an archive entry is either rejected/skipped or materialized at
a destination inside the new version directory: the sanitized relative
segments contain no `..`, no empty segment and no `.`, so joining them under
the version directory cannot escape it; the claim's example entry
`../../../etc/passwd` is rejected. -/
theorem unarchive_entry_safety :
    (∀ (ctName name : String) (segs : List String),
      entryDest ctName name = some segs →
      ∀ s ∈ segs, s ≠ "" ∧ s ≠ "." ∧ s ≠ "..") ∧
    entryDest "gateway" "../../../etc/passwd" = none := by
  refine ⟨?_, by decide⟩
  intro ct name segs h s hs
  simp only [entryDest] at h
  by_cases hn : fnname ct name = ""
  · rw [if_pos hn] at h
    simp at h
  rw [if_neg hn] at h
  simp only [CleanRelativePath] at h
  by_cases habs : (fnname ct name).data.head? = some '/'
  · rw [if_pos habs] at h
    simp at h
  rw [if_neg habs] at h
  by_cases hdot : (cleanSegs (segsOf (fnname ct name))).head? = some ".."
  · rw [if_pos hdot] at h
    simp at h
  rw [if_neg hdot] at h
  have hseg := Option.some.inj h
  subst hseg
  obtain ⟨g, d, hgd, hgood⟩ := cleanSegs_inv (segsOf (fnname ct name))
  cases d with
  | succ d' =>
    exfalso
    apply hdot
    rw [cleanSegs, hgd, List.reverse_append, List.reverse_replicate,
      List.replicate_succ, List.cons_append]
    rfl
  | zero =>
    rw [cleanSegs, hgd] at hs
    simp only [List.replicate, List.append_nil, List.mem_reverse] at hs
    exact hgood s hs

/-- Witness for C4 at a concrete accepted entry: `gateway/bin/../lib/file.so`
sanitizes to `lib/file.so`, whose first segment is a plain name. -/
theorem unarchive_entry_safety_witness :
    ("lib" : String) ≠ "" ∧ ("lib" : String) ≠ "." ∧ ("lib" : String) ≠ ".." :=
  unarchive_entry_safety.1 "gateway" "gateway/bin/../lib/file.so" ["lib", "file.so"]
    (by decide) "lib" (by decide)

/-- Claim C7 counterexample: requesting `gateway` against an archive whose
filename parses to `netprobe` is not an error — `Unarchive` returns nil
without unpacking anything (a silent skip), where the claim requires an
`InvalidArgs`-style failure. -/
theorem unarchive_mismatch_counterexample :
    unarchiveCheck [] ⟨"gateway", []⟩ (some (⟨"netprobe", []⟩, "6.5.0")) "" =
      .silentSkip ∧
    checkErr (unarchiveCheck [] ⟨"gateway", []⟩
      (some (⟨"netprobe", []⟩, "6.5.0")) "") = none ∧
    checkUnpacks (unarchiveCheck [] ⟨"gateway", []⟩
      (some (⟨"netprobe", []⟩, "6.5.0")) "") = false :=
  ⟨rfl, rfl, rfl⟩

/-- Claim C7 amended: without an override, a filename/requested-component
mismatch makes `Unarchive` return success without unpacking anything (a
silent, debug-logged no-op) rather than an error; the generic placeholders
`none`/`san` adopt the component parsed from the filename, an exact match
proceeds, and an unparseable filename is an `InvalidArgs` error. -/
theorem unarchive_mismatch_policy (reg : List Component) (ct ctFile : Component)
    (v : String) :
    (ct.name ≠ "none" → ct.name ≠ "san" → ct.name ≠ ctFile.name →
      unarchiveCheck reg ct (some (ctFile, v)) "" = .silentSkip) ∧
    (ct.name = "none" ∨ ct.name = "san" →
      unarchiveCheck reg ct (some (ctFile, v)) "" = .proceed ctFile v) ∧
    (ct.name ≠ "none" → ct.name ≠ "san" → ct.name = ctFile.name →
      unarchiveCheck reg ct (some (ctFile, v)) "" = .proceed ct v) ∧
    unarchiveCheck reg ct none "" = .invalidArgs := by
  have ha : unarchiveCheck reg ct (some (ctFile, v)) "" =
      if ct.name = "none" ∨ ct.name = "san" then .proceed ctFile v
      else if ct.name = ctFile.name then .proceed ct v
      else .silentSkip := rfl
  refine ⟨fun h1 h2 h3 => ?_, fun h => ?_, fun h1 h2 h3 => ?_, rfl⟩
  · rw [ha, if_neg (by tauto), if_neg h3]
  · rw [ha, if_pos h]
  · rw [ha, if_neg (by tauto), if_pos h3]

/-- Witness for C7: the `san` placeholder adopts the filename's component. -/
theorem unarchive_mismatch_policy_witness :
    unarchiveCheck [] ⟨"san", []⟩ (some (⟨"netprobe", []⟩, "6.5.0")) "" =
      .proceed ⟨"netprobe", []⟩ "6.5.0" :=
  (unarchive_mismatch_policy [] ⟨"san", []⟩ ⟨"netprobe", []⟩ "6.5.0").2.1 (Or.inr rfl)

end Cordial
